import Mathlib

/-
Verification of the conversational agent platform front-end against its
specification.  The definitions below are shallow embeddings of the
TypeScript source files:

  * `buildQueryString`            from src/front-end/src/api/routes/utils.ts
  * `parsePythonObject`,
    `processLine` (streamQuestion
    per-line handling)            from src/front-end/src/api/routes/chats.ts
  * `applyEvent`,
    `updateChatMessages`          from src/front-end/src/pages/ChatPage.tsx
    (handleSendMessage stream callback)
  * `extractPathParams`,
    `buildPathParamsSchema`       from the webhook tool editor component
  * `enforceConstraintsOnNode`    from the JSON-schema editor component

Components of the back-end engine (Recursion Guard, Streaming Emitter) are
not part of the repository snapshot; they are modelled from the
specification text and marked as such in their doc comments.

JavaScript numeric values are modelled exactly (as `Int`); IEEE-754
rounding of extreme values is not modelled and no claim depends on it.
-/

/- Characters that the hosting language's scanner treats specially are
built from their code points. -/
def squoteChar : Char := Char.ofNat 39
def dquoteChar : Char := Char.ofNat 34
def lbraceChar : Char := Char.ofNat 123
def rbraceChar : Char := Char.ofNat 125
def lbraceStr : String := lbraceChar.toString
def quoteWrap (s : String) : String := squoteChar.toString ++ s ++ squoteChar.toString

/- ===================================================================
   buildQueryString  (src/front-end/src/api/routes/utils.ts)
   =================================================================== -/

/- Values admissible in the `params` record of `buildQueryString`:
`Record<string, string | number | boolean | null | undefined>`. -/
inductive QVal where
  | str (s : String)
  | num (n : Int)
  | bool (b : Bool)
  | null
  | undef
deriving DecidableEq, Repr

/- JavaScript `String(value)` on the admissible values. -/
def jsToString : QVal → String
  | .str s => s
  | .num n => toString n
  | .bool b => cond b "true" "false"
  | .null => "null"
  | .undef => "undefined"

def QVal.isNullish : QVal → Bool
  | .null => true
  | .undef => true
  | _ => false

/- `URLSearchParams.set`: replace the first entry with the key (dropping
any later duplicates), or append when absent. -/
def uspSet : List (String × String) → String → String → List (String × String)
  | [], k, v => [(k, v)]
  | (k', v') :: t, k, v =>
      if k' = k then (k, v) :: t.filter (fun kv => kv.1 ≠ k)
      else (k', v') :: uspSet t k v

/- UTF-8 bytes of a character (code points, standard 1-4 byte encoding). -/
def utf8Bytes (c : Char) : List Nat :=
  let n := c.toNat
  if n < 128 then [n]
  else if n < 2048 then [192 + n / 64, 128 + n % 64]
  else if n < 65536 then [224 + n / 4096, 128 + (n / 64) % 64, 128 + n % 64]
  else [240 + n / 262144, 128 + (n / 4096) % 64, 128 + (n / 64) % 64, 128 + n % 64]

def hexDigitUpper (n : Nat) : Char :=
  if n < 10 then Char.ofNat (48 + n) else Char.ofNat (55 + n)

/- Bytes left intact by the application/x-www-form-urlencoded serializer. -/
def isSafeByte (b : Nat) : Bool :=
  (48 ≤ b && b ≤ 57) || (65 ≤ b && b ≤ 90) || (97 ≤ b && b ≤ 122) ||
  b = 42 || b = 45 || b = 46 || b = 95

def encByte (b : Nat) : String :=
  if b = 32 then "+"
  else if isSafeByte b then (Char.ofNat b).toString
  else "%" ++ (hexDigitUpper (b / 16)).toString ++ (hexDigitUpper (b % 16)).toString

/- application/x-www-form-urlencoded component serialization, as performed
by `URLSearchParams.toString`. -/
def formEncode (s : String) : String :=
  ((s.data.flatMap utf8Bytes).map encByte).foldl (· ++ ·) ""

def uspToString (l : List (String × String)) : String :=
  String.intercalate "&" (l.map fun kv => formEncode kv.1 ++ "=" ++ formEncode kv.2)

/- Shallow embedding of `buildQueryString`.  `none` is the absent
(`undefined`) argument; a present record is its ordered entry list
(`Object.entries` order), keys pairwise distinct as in a TS `Record`. -/
def buildQueryString (params : Option (List (String × QVal))) : String :=
  match params with
  | none => ""
  | some ps =>
      let searchParams := ps.foldl
        (fun acc kv => if kv.2.isNullish then acc else uspSet acc kv.1 (jsToString kv.2)) []
      let queryString := uspToString searchParams
      if queryString = "" then "" else "?" ++ queryString

/- ===================================================================
   ChatPage.tsx : handleSendMessage stream-event processing
   =================================================================== -/

/- `StreamMessageResponse` at its declared TypeScript types
(src/front-end/src/api/types of the chat module). -/
structure StreamEvt where
  status : String
  response : String
  error : Option String := none
  tool_name : Option String := none
  tool_args : Option String := none
  tool_result : Option String := none
  info : Option String := none
deriving DecidableEq, Repr

/- `StreamStep` from the same types module. -/
structure Step where
  type : String
  content : Option String := none
  toolName : Option String := none
  toolArgs : Option String := none
  toolResult : Option String := none
  isLoading : Option Bool := none
deriving DecidableEq, Repr

/- The fields of `Message` used by the stream callback. -/
structure Msg where
  id : Int
  sent_at : String
  message : String
  input_tokens : Int
  reasoning_tokens : Int
  output_tokens : Int
  chat_id : String
  response : String
  steps : List Step
deriving DecidableEq, Repr

/- The optimistic message pushed before streaming starts. -/
def mkOptimisticMsg (tempId : Int) (sentAt question chatId : String) : Msg :=
  ⟨tempId, sentAt, question, 0, 0, 0, chatId, "", []⟩

/- JS `x || dflt` on an optional string (empty string is falsy). -/
def jsOrStr (o : Option String) (dflt : String) : String :=
  match o with
  | some s => if s = "" then dflt else s
  | none => dflt

/- JS `x || undefined` on an optional string. -/
def jsFalsyToNone (o : Option String) : Option String :=
  match o with
  | some s => if s = "" then none else some s
  | none => none

def mkTextStep (frag : String) : Step := { type := "text", content := some frag }

/- The `response` case: extend a trailing text step or push a new one. -/
def pushOrExtend (steps : List Step) (frag : String) : List Step :=
  match steps.getLast? with
  | some last =>
      if last.type = "text" then
        steps.dropLast ++ [{ last with content := some ((last.content.getD "") ++ frag) }]
      else steps ++ [mkTextStep frag]
  | none => steps ++ [mkTextStep frag]

def isLoadingTool (s : Step) : Bool := s.type = "tool" && s.isLoading = some true

def markDone (s : Step) (r : String) : Step :=
  { s with toolResult := some r, isLoading := some false }

/- The `tool_result` case scans the step list from the highest index down
and rewrites the first step found with `type === "tool" && isLoading`.
`attachFromEnd` returns the rewritten list when such a step exists,
preferring a match in the tail (higher index) over the head. -/
def attachFromEnd (steps : List Step) (r : String) : Option (List Step) :=
  match steps with
  | [] => none
  | s :: rest =>
      match attachFromEnd rest r with
      | some rest' => some (s :: rest')
      | none => if isLoadingTool s then some (markDone s r :: rest) else none

def setResultLastLoading (steps : List Step) (r : String) : List Step :=
  (attachFromEnd steps r).getD steps

/- The body of the `onMessage` callback for the message whose id matches
`tempId` (the `switch (data.status)` statement). -/
def applyEvent (msg : Msg) (data : StreamEvt) : Msg :=
  if data.status = "response" then
    if data.response ≠ "" then
      { msg with
        steps := pushOrExtend msg.steps data.response,
        response := msg.response ++ data.response }
    else msg
  else if data.status = "tool_call" then
    { msg with
      steps := msg.steps ++
        [{ type := "tool",
           toolName := some (jsOrStr data.tool_name "Unknown Tool"),
           toolArgs := jsFalsyToNone data.tool_args,
           isLoading := some true }] }
  else if data.status = "tool_result" then
    { msg with steps := setResultLastLoading msg.steps (jsOrStr data.tool_result "") }
  else msg

/- The full `setChatMessages` update: only the optimistic message is
rewritten, every other message is returned unchanged. -/
def updateChatMessages (prev : List Msg) (tempId : Int) (data : StreamEvt) : List Msg :=
  prev.map fun msg => if msg.id ≠ tempId then msg else applyEvent msg data

/- Processing an entire stream of events against one message. -/
def processEvents (msg : Msg) (events : List StreamEvt) : Msg :=
  events.foldl applyEvent msg

/- ===================================================================
   chats.ts : parsePythonObject and streamQuestion line handling
   =================================================================== -/

/- Runtime JavaScript values that can appear in a parsed stream payload.
Numeric values are exact; `inf` is the JS Infinity produced by
`Number("Infinity")`. -/
inductive JSVal where
  | str (s : String)
  | num (n : Int)
  | inf
  | bool (b : Bool)
  | null
deriving DecidableEq, Repr

/- JS regex `\w` (ASCII word character). -/
def isWordChar (c : Char) : Bool := c.isAlphanum || c = '_'

/- The raw capture of the value alternation
`'([^']*)'|"([^"]*)"|None|True|False|\w+`: a single-quoted body, a
double-quoted body, or a bare word (the literal branches None/True/False
produce their own text as the bare word). -/
inductive RawVal where
  | squoted (s : String)
  | dquoted (s : String)
  | word (s : String)
deriving DecidableEq, Repr

def matchQuoted (q : Char) (mk : String → RawVal) (cs : List Char) :
    Option (RawVal × List Char) :=
  match cs with
  | [] => none
  | c :: rest =>
      if c = q then
        let content := rest.takeWhile (fun d => d ≠ q)
        match rest.dropWhile (fun d => d ≠ q) with
        | c' :: rest' => if c' = q then some (mk content.asString, rest') else none
        | [] => none
      else none

def matchLit (lit : String) (cs : List Char) : Option (RawVal × List Char) :=
  if cs.take lit.length = lit.data then some (.word lit, cs.drop lit.length) else none

def matchWord (cs : List Char) : Option (RawVal × List Char) :=
  let w := cs.takeWhile isWordChar
  if w.isEmpty then none else some (.word w.asString, cs.dropWhile isWordChar)

/- The ordered alternation of the value part of the regex (first
successful branch wins, as in a JS regex). -/
def matchValue (cs : List Char) : Option (RawVal × List Char) :=
  match matchQuoted squoteChar RawVal.squoted cs with
  | some r => some r
  | none =>
    match matchQuoted dquoteChar RawVal.dquoted cs with
    | some r => some r
    | none =>
      match matchLit "None" cs with
      | some r => some r
      | none =>
        match matchLit "True" cs with
        | some r => some r
        | none =>
          match matchLit "False" cs with
          | some r => some r
          | none => matchWord cs

/- One attempt of the whole regex `(\w+)=(...)` anchored at the head of
`cs`: a nonempty word run, then `=`, then the value alternation. -/
def tryMatchAt (cs : List Char) : Option ((String × RawVal) × List Char) :=
  let keyCs := cs.takeWhile isWordChar
  if keyCs.isEmpty then none
  else
    match cs.dropWhile isWordChar with
    | '=' :: afterEq =>
        (matchValue afterEq).map fun rv => ((keyCs.asString, rv.1), rv.2)
    | _ => none

/- `regex.exec` semantics: the leftmost position admitting a match wins. -/
def nextMatch : List Char → Option ((String × RawVal) × List Char)
  | [] => none
  | c :: rest =>
      match tryMatchAt (c :: rest) with
      | some m => some m
      | none => nextMatch rest


theorem length_dropWhile_le (p : Char → Bool) (l : List Char) :
    (l.dropWhile p).length ≤ l.length := by
  induction l with
  | nil => simp
  | cons a t ih =>
      by_cases h : p a
      · rw [List.dropWhile_cons_of_pos h]; exact Nat.le_succ_of_le ih
      · rw [List.dropWhile_cons_of_neg h]

theorem matchQuoted_length_le {q : Char} {mk : String → RawVal} {cs : List Char}
    {rv : RawVal} {rest : List Char}
    (h : matchQuoted q mk cs = some (rv, rest)) : rest.length ≤ cs.length := by
  cases cs with
  | nil => simp [matchQuoted] at h
  | cons c tl =>
      simp only [matchQuoted] at h
      split at h
      · split at h
        · next c' rest' hdw =>
            split at h
            · simp only [Option.some.injEq, Prod.mk.injEq] at h
              obtain ⟨-, hrest⟩ := h
              subst hrest
              have h1 : rest'.length + 1 ≤ tl.length := by
                have := length_dropWhile_le (fun d => d ≠ q) tl
                rw [hdw] at this
                simp only [List.length_cons] at this
                exact this
              simp only [List.length_cons]
              omega
            · exact absurd h (by simp)
        · exact absurd h (by simp)
      · exact absurd h (by simp)

theorem matchLit_length_le {lit : String} {cs : List Char}
    {rv : RawVal} {rest : List Char}
    (h : matchLit lit cs = some (rv, rest)) : rest.length ≤ cs.length := by
  rw [matchLit] at h
  split at h
  · simp only [Option.some.injEq, Prod.mk.injEq] at h
    obtain ⟨-, hrest⟩ := h
    subst hrest
    rw [List.length_drop]; omega
  · exact absurd h (by simp)

theorem matchWord_length_le {cs : List Char} {rv : RawVal} {rest : List Char}
    (h : matchWord cs = some (rv, rest)) : rest.length ≤ cs.length := by
  simp only [matchWord] at h
  split at h
  · exact absurd h (by simp)
  · simp only [Option.some.injEq, Prod.mk.injEq] at h
    obtain ⟨-, hrest⟩ := h
    subst hrest
    exact length_dropWhile_le _ _

theorem matchValue_length_le {cs : List Char} {rv : RawVal} {rest : List Char}
    (h : matchValue cs = some (rv, rest)) : rest.length ≤ cs.length := by
  rw [matchValue] at h
  split at h
  · next heq => cases h; exact matchQuoted_length_le heq
  · split at h
    · next heq => cases h; exact matchQuoted_length_le heq
    · split at h
      · next heq => cases h; exact matchLit_length_le heq
      · split at h
        · next heq => cases h; exact matchLit_length_le heq
        · split at h
          · next heq => cases h; exact matchLit_length_le heq
          · exact matchWord_length_le h

theorem tryMatchAt_length_lt {cs : List Char} {kv : String × RawVal} {rest : List Char}
    (h : tryMatchAt cs = some (kv, rest)) : rest.length < cs.length := by
  simp only [tryMatchAt] at h
  split at h
  · exact absurd h (by simp)
  · next hk =>
      split at h
      · next afterEq hdw =>
          simp only [Option.map_eq_some'] at h
          obtain ⟨⟨rv', rest'⟩, hmv, heq⟩ := h
          simp only [Prod.mk.injEq] at heq
          obtain ⟨-, hrest⟩ := heq
          subst hrest
          have h1 : rest'.length ≤ afterEq.length := matchValue_length_le hmv
          have hsum : (cs.takeWhile isWordChar).length + (cs.dropWhile isWordChar).length
              = cs.length := by
            conv_rhs => rw [← List.takeWhile_append_dropWhile (p := isWordChar) (l := cs)]
            rw [List.length_append]
          rw [hdw] at hsum
          have hkpos : 0 < (cs.takeWhile isWordChar).length := by
            cases hkw : cs.takeWhile isWordChar with
            | nil => rw [hkw] at hk; simp at hk
            | cons a b => simp [hkw]
          simp only [List.length_cons] at hsum
          omega
      · exact absurd h (by simp)

theorem nextMatch_length_lt {cs : List Char} {kv : String × RawVal} {rest : List Char}
    (h : nextMatch cs = some (kv, rest)) : rest.length < cs.length := by
  induction cs with
  | nil => simp [nextMatch] at h
  | cons c tl ih =>
      rw [nextMatch] at h
      split at h
      · next heq => cases h; exact tryMatchAt_length_lt heq
      · have := ih h
        simp only [List.length_cons]
        omega

/- The `while ((match = regex.exec(pythonStr)) !== null)` loop: successive
non-overlapping leftmost matches.  The loop counter is only a structural
bound: the regex never matches the empty string, so each round consumes at
least one character (`nextMatch_length_lt`) and `cs.length` rounds always
suffice (`scanMatchesAux_congr` below proves the bound irrelevant). -/
def scanMatchesAux : Nat → List Char → List (String × RawVal)
  | 0, _ => []
  | fuel + 1, cs =>
      match nextMatch cs with
      | none => []
      | some (kv, rest) => kv :: scanMatchesAux fuel rest

def scanMatches (cs : List Char) : List (String × RawVal) :=
  scanMatchesAux cs.length cs

theorem scanMatchesAux_congr :
    ∀ (f1 : Nat), ∀ (f2 : Nat) (cs : List Char), cs.length ≤ f1 → cs.length ≤ f2 →
      scanMatchesAux f1 cs = scanMatchesAux f2 cs := by
  intro f1
  induction f1 with
  | zero =>
      intro f2 cs h1 _
      have : cs = [] := List.length_eq_zero.mp (Nat.le_zero.mp h1)
      subst this
      cases f2 <;> simp [scanMatchesAux, nextMatch]
  | succ f ih =>
      intro f2 cs h1 h2
      cases f2 with
      | zero =>
          have : cs = [] := List.length_eq_zero.mp (Nat.le_zero.mp h2)
          subst this
          simp [scanMatchesAux, nextMatch]
      | succ f' =>
          cases hnm : nextMatch cs with
          | none => rw [scanMatchesAux, scanMatchesAux, hnm]
          | some m =>
              obtain ⟨kv, rest⟩ := m
              have hlt := nextMatch_length_lt hnm
              rw [scanMatchesAux, scanMatchesAux, hnm]
              simp only [ih f' rest (by omega) (by omega)]

/- JS `Number(w)` restricted to `\w+` strings (the only strings reaching
the numeric fallback).  Returns `none` for NaN, in which case the source
keeps the string value.  Values are exact integers (see header note). -/
def natOfDigits (base : Nat) (digitVal : Char → Option Nat) (l : List Char) : Option Nat :=
  l.foldl (fun acc c => match acc, digitVal c with
    | some n, some d => some (n * base + d)
    | _, _ => none) (some 0)

def decDigit (c : Char) : Option Nat :=
  if c.isDigit then some (c.toNat - 48) else none

def hexDigit (c : Char) : Option Nat :=
  if c.isDigit then some (c.toNat - 48)
  else if 65 ≤ c.toNat && c.toNat ≤ 70 then some (c.toNat - 55)
  else if 97 ≤ c.toNat && c.toNat ≤ 102 then some (c.toNat - 87)
  else none

def binDigit (c : Char) : Option Nat :=
  if c = '0' then some 0 else if c = '1' then some 1 else none

def octDigit (c : Char) : Option Nat :=
  if 48 ≤ c.toNat && c.toNat ≤ 55 then some (c.toNat - 48) else none

def jsWordNumber (s : String) : Option JSVal :=
  let cs := s.data
  if s = "Infinity" then some .inf
  else if cs ≠ [] && cs.all (·.isDigit) then
    (natOfDigits 10 decDigit cs).map (fun n => .num (Int.ofNat n))
  else
    match cs with
    | '0' :: x :: rest =>
        if (x = 'x' || x = 'X') && rest ≠ [] then
          (natOfDigits 16 hexDigit rest).map (fun n => .num (Int.ofNat n))
        else if (x = 'b' || x = 'B') && rest ≠ [] then
          (natOfDigits 2 binDigit rest).map (fun n => .num (Int.ofNat n))
        else if (x = 'o' || x = 'O') && rest ≠ [] then
          (natOfDigits 8 octDigit rest).map (fun n => .num (Int.ofNat n))
        else decExpNumber cs
    | _ => decExpNumber cs
where
  /- decimal-with-exponent form `\d+[eE]\d+` (the only remaining numeric
  `\w+` shape). -/
  decExpNumber (cs : List Char) : Option JSVal :=
    let mant := cs.takeWhile (·.isDigit)
    match cs.dropWhile (·.isDigit) with
    | e :: expPart =>
        if (e = 'e' || e = 'E') && mant ≠ [] && expPart ≠ [] && expPart.all (·.isDigit) then
          match natOfDigits 10 decDigit mant, natOfDigits 10 decDigit expPart with
          | some m, some ex => some (.num (Int.ofNat (m * 10 ^ ex)))
          | _, _ => none
        else none
    | [] => none

/- The `if/else` chain interpreting one regex match (single-quoted and
double-quoted captures are strings; `None`/`True`/`False` literals; any
other word is a number when `Number(...)` is not NaN, else the string). -/
def interpRawVal : RawVal → JSVal
  | .squoted s => .str s
  | .dquoted s => .str s
  | .word s =>
      if s = "None" then .null
      else if s = "True" then .bool true
      else if s = "False" then .bool false
      else match jsWordNumber s with
        | some v => v
        | none => .str s

def pyMatches (s : String) : List (String × JSVal) :=
  (scanMatches s.data).map fun kv => (kv.1, interpRawVal kv.2)

/- The runtime shape of the object built by `parsePythonObject`: the seven
declared fields.  Keys other than these seven also land on the JS object
but are invisible through the `StreamMessageResponse` interface, so they
are not tracked. -/
structure PyRecord where
  status : JSVal
  response : JSVal
  error : JSVal
  tool_name : JSVal
  tool_args : JSVal
  tool_result : JSVal
  info : JSVal
deriving DecidableEq, Repr

/- The initial `result` object of `parsePythonObject`. -/
def pyDefaults : PyRecord :=
  ⟨.str "", .str "", .null, .null, .null, .null, .null⟩

/- `result[key] = value` for one match. -/
def applyKV (r : PyRecord) (kv : String × JSVal) : PyRecord :=
  if kv.1 = "status" then { r with status := kv.2 }
  else if kv.1 = "response" then { r with response := kv.2 }
  else if kv.1 = "error" then { r with error := kv.2 }
  else if kv.1 = "tool_name" then { r with tool_name := kv.2 }
  else if kv.1 = "tool_args" then { r with tool_args := kv.2 }
  else if kv.1 = "tool_result" then { r with tool_result := kv.2 }
  else if kv.1 = "info" then { r with info := kv.2 }
  else r

/- Shallow embedding of `parsePythonObject` (chats.ts lines 18-64). -/
def parsePythonObject (pythonStr : String) : PyRecord :=
  (pyMatches pythonStr).foldl applyKV pyDefaults

/- JS string primitives used by the line loop, modelled structurally
(`String.prototype.startsWith`, `.slice`, `.trim`).  `trim` removes JS
WhiteSpace and LineTerminator code points. -/
def jsWhitespace (c : Char) : Bool :=
  c.toNat = 32 || (9 ≤ c.toNat && c.toNat ≤ 13) || c.toNat = 160 ||
  c.toNat = 65279 || c.toNat = 8232 || c.toNat = 8233

def jsTrim (s : String) : String :=
  ((s.data.dropWhile jsWhitespace).reverse.dropWhile jsWhitespace).reverse.asString

def jsStartsWith (s p : String) : Bool := s.data.take p.data.length == p.data

def jsSlice (s : String) (n : Nat) : String := (s.data.drop n).asString

/- What the per-line loop of `streamQuestion` does with one complete line
(chats.ts lines 136-179).  `deliveredJson` records that the payload was
handed to `JSON.parse` (a host builtin whose output is passed to
`onMessage` unvalidated); `deliveredPython` records a delivery through the
`parsePythonObject` fallback. -/
inductive StreamLineResult where
  | skipped
  | eventSet (name : String)
  | deliveredJson (payload : String)
  | deliveredPython (r : PyRecord)
deriving DecidableEq, Repr

/- Returns the action for the line together with the updated
`currentEvent` state. -/
def processLine (currentEvent : String) (line : String) : StreamLineResult × String :=
  if line = "" || jsStartsWith line ":" then (.skipped, currentEvent)
  else if jsStartsWith line "event:" then
    let t := jsTrim (jsSlice line 6)
    (.eventSet t, t)
  else if jsStartsWith line "data:" then
    let dataStr := jsTrim (jsSlice line 5)
    if dataStr = "" || dataStr = "null" then (.skipped, currentEvent)
    else
      let res :=
        if currentEvent = "message" then
          if jsStartsWith dataStr lbraceStr then
            StreamLineResult.deliveredJson dataStr
          else
            StreamLineResult.deliveredPython (parsePythonObject dataStr)
        else StreamLineResult.skipped
      (res, "message")
  else (.skipped, currentEvent)

/- ===================================================================
   Protocol statuses (the `StreamStatus` union type of the API types)
   =================================================================== -/

def protocolStatuses : List String :=
  ["searching", "tool_call", "tool_running", "tool_result", "response",
   "end_turn", "keepalive", "error"]

/- ===================================================================
   Helper lemmas
   =================================================================== -/

theorem foldl_append_shift (l : List String) :
    ∀ a : String, l.foldl (· ++ ·) a = a ++ l.foldl (· ++ ·) "" := by
  induction l with
  | nil => intro a; simp
  | cons x t ih =>
      intro a
      simp only [List.foldl_cons]
      rw [show ("" : String) ++ x = x by simp]
      rw [ih (a ++ x), ih x, String.append_assoc]

theorem join_cons (a : String) (l : List String) :
    String.join (a :: l) = a ++ String.join l := by
  simp only [String.join, List.foldl_cons]
  rw [foldl_append_shift]
  simp

theorem applyEvent_response_eq (m : Msg) (d : StreamEvt) :
    (applyEvent m d).response
      = m.response ++ (if d.status = "response" then d.response else "") := by
  unfold applyEvent
  split_ifs with h1 h2 h3 h4 <;> simp_all

theorem processEvents_response (events : List StreamEvt) :
    ∀ m : Msg,
      (processEvents m events).response
        = m.response ++
            String.join ((events.filter fun d => d.status == "response").map
              fun d => d.response) := by
  induction events with
  | nil => intro m; simp [processEvents, String.join]
  | cons d t ih =>
      intro m
      simp only [processEvents, List.foldl_cons] at *
      rw [ih (applyEvent m d), applyEvent_response_eq]
      by_cases h : d.status = "response"
      · simp [List.filter_cons, h, join_cons, String.append_assoc]
      · have hb : (d.status == "response") = false := by simpa using h
        simp [List.filter_cons, h, hb]

theorem attachFromEnd_none {l : List Step} {r : String}
    (h : ∀ t ∈ l, isLoadingTool t = false) : attachFromEnd l r = none := by
  induction l with
  | nil => rfl
  | cons s rest ih =>
      rw [attachFromEnd]
      rw [ih fun t ht => h t (List.mem_cons_of_mem _ ht)]
      rw [h s (List.mem_cons_self ..)]
      simp

theorem attachFromEnd_spec {r : String} {s : Step} {suf : List Step}
    (hs : isLoadingTool s = true) (hsuf : ∀ t ∈ suf, isLoadingTool t = false) :
    ∀ pre : List Step,
      attachFromEnd (pre ++ s :: suf) r = some (pre ++ markDone s r :: suf) := by
  intro pre
  induction pre with
  | nil =>
      simp only [List.nil_append]
      rw [attachFromEnd, attachFromEnd_none hsuf, hs]
      simp
  | cons p pre' ih =>
      simp only [List.cons_append]
      rw [attachFromEnd, ih]

/- Generic fact: a field of the object built by folding `applyKV` is
either its value in the start record or the value of some match for the
field's key. -/
theorem foldl_applyKV_field (f : PyRecord → JSVal) (key : String)
    (hagree : ∀ (r : PyRecord) (kv : String × JSVal),
      f (applyKV r kv) = f r ∨ (kv.1 = key ∧ f (applyKV r kv) = kv.2)) :
    ∀ (l : List (String × JSVal)) (r : PyRecord),
      f (l.foldl applyKV r) = f r ∨
        ∃ v, (key, v) ∈ l ∧ f (l.foldl applyKV r) = v := by
  intro l
  induction l with
  | nil => intro r; left; rfl
  | cons kv t ih =>
      intro r
      rw [List.foldl_cons]
      rcases ih (applyKV r kv) with h | ⟨v, hmem, hval⟩
      · rcases hagree r kv with h2 | ⟨hk, h2⟩
        · left; rw [h, h2]
        · right
          refine ⟨kv.2, ?_, by rw [h, h2]⟩
          have : kv = (key, kv.2) := by
            cases kv; simp_all
          rw [← this]
          exact List.mem_cons_self ..
      · right; exact ⟨v, List.mem_cons_of_mem _ hmem, hval⟩

theorem applyKV_status_agree (r : PyRecord) (kv : String × JSVal) :
    (applyKV r kv).status = r.status ∨
      (kv.1 = "status" ∧ (applyKV r kv).status = kv.2) := by
  unfold applyKV; split_ifs <;> simp_all

theorem applyKV_response_agree (r : PyRecord) (kv : String × JSVal) :
    (applyKV r kv).response = r.response ∨
      (kv.1 = "response" ∧ (applyKV r kv).response = kv.2) := by
  unfold applyKV; split_ifs <;> simp_all

theorem applyKV_error_agree (r : PyRecord) (kv : String × JSVal) :
    (applyKV r kv).error = r.error ∨
      (kv.1 = "error" ∧ (applyKV r kv).error = kv.2) := by
  unfold applyKV; split_ifs <;> simp_all

theorem applyKV_tool_name_agree (r : PyRecord) (kv : String × JSVal) :
    (applyKV r kv).tool_name = r.tool_name ∨
      (kv.1 = "tool_name" ∧ (applyKV r kv).tool_name = kv.2) := by
  unfold applyKV; split_ifs <;> simp_all

theorem applyKV_tool_args_agree (r : PyRecord) (kv : String × JSVal) :
    (applyKV r kv).tool_args = r.tool_args ∨
      (kv.1 = "tool_args" ∧ (applyKV r kv).tool_args = kv.2) := by
  unfold applyKV; split_ifs <;> simp_all

theorem applyKV_tool_result_agree (r : PyRecord) (kv : String × JSVal) :
    (applyKV r kv).tool_result = r.tool_result ∨
      (kv.1 = "tool_result" ∧ (applyKV r kv).tool_result = kv.2) := by
  unfold applyKV; split_ifs <;> simp_all

theorem applyKV_info_agree (r : PyRecord) (kv : String × JSVal) :
    (applyKV r kv).info = r.info ∨
      (kv.1 = "info" ∧ (applyKV r kv).info = kv.2) := by
  unfold applyKV; split_ifs <;> simp_all

/- ===================================================================
   Claim theorems: C1, C2, C3, C6, C7
   =================================================================== -/

/-- C1: the claim says every stream data payload is delivered only by
parsing the line as a single well-formed JSON object, with no
Python-repr-style key=value fallback.  The code violates this: a data
line whose payload does not start with a brace is delivered through the
`parsePythonObject` fallback.  This theorem evaluates the line handler at
such a line (the very example given in the source comment) and shows the
event is delivered via the fallback branch, not via JSON parsing. -/
theorem c1_stream_fallback_code_bug :
    processLine "message"
        ("data: status=" ++ quoteWrap "response" ++ " error=None response=" ++
          quoteWrap "hello" ++ " tool_name=None")
      = (StreamLineResult.deliveredPython
          ⟨.str "response", .str "hello", .null, .null, .null, .null, .null⟩,
        "message") := by
  rfl

/-- C2 counterexample: with a batch of two tool calls (`toolA` then
`toolB`) whose results arrive in request order (`resultA` then
`resultB`), the client attaches `resultA` to `toolB`'s step and `resultB`
to `toolA`'s step — each result lands on a step other than its
originating call, refuting the claim that results are call-correlated
regardless of arrival order. -/
theorem c2_counterexample :
    ((processEvents (mkOptimisticMsg 1 "t" "q" "c")
        [⟨"tool_call", "", none, some "toolA", none, none, none⟩,
         ⟨"tool_call", "", none, some "toolB", none, none, none⟩,
         ⟨"tool_result", "", none, none, none, some "resultA", none⟩,
         ⟨"tool_result", "", none, none, none, some "resultB", none⟩]).steps.map
      fun s => (s.toolName, s.toolResult))
      = [(some "toolA", some "resultB"), (some "toolB", some "resultA")]
    ∧ ("resultB" : String) ≠ "resultA" := by
  exact ⟨rfl, by decide⟩

/-- C2 (amended): a `tool_result` event is attached to the most recently
issued tool call still marked loading (LIFO/stack order), not to a
call-id-correlated step: whenever the message's steps split as
`pre ++ s :: suf` with `s` a loading tool step and nothing loading after
it, the result event rewrites exactly `s` and leaves every other step
unchanged.  Consequently request-order correlation holds only when a
batch has size one (stream events carry no call id). -/
theorem c2_lifo_attachment (msg : Msg) (d : StreamEvt) (pre suf : List Step) (s : Step)
    (hst : d.status = "tool_result")
    (hsteps : msg.steps = pre ++ s :: suf)
    (hs : isLoadingTool s = true)
    (hsuf : ∀ t ∈ suf, isLoadingTool t = false) :
    (applyEvent msg d).steps = pre ++ markDone s (jsOrStr d.tool_result "") :: suf := by
  have hne1 : ¬ d.status = "response" := by rw [hst]; decide
  have hne2 : ¬ d.status = "tool_call" := by rw [hst]; decide
  unfold applyEvent
  rw [if_neg hne1, if_neg hne2, if_pos hst]
  show setResultLastLoading msg.steps (jsOrStr d.tool_result "") = _
  rw [hsteps, setResultLastLoading, attachFromEnd_spec hs hsuf]
  rfl

theorem c2_lifo_attachment_witness :
    (applyEvent
        ⟨1, "t", "q", 0, 0, 0, "c", "",
          [⟨"tool", none, some "toolA", none, none, some true⟩]⟩
        ⟨"tool_result", "", none, none, none, some "res", none⟩).steps
      = [] ++ markDone ⟨"tool", none, some "toolA", none, none, some true⟩
          (jsOrStr (some "res") "") :: [] := by
  exact c2_lifo_attachment _ _ [] [] _ rfl rfl (by decide) (by intro t ht; cases ht)

/-- C3 counterexample: the claim says every event delivered by
`streamQuestion` has a status among the eight protocol statuses and a
response field empty unless status is `response`.  The data line
`response='oops'` is delivered through the fallback with status `""`
(not a protocol status) and a nonempty response — the client performs no
runtime validation. -/
theorem c3_counterexample :
    (processLine "message" ("data: response=" ++ quoteWrap "oops")).1
      = StreamLineResult.deliveredPython
          ⟨.str "", .str "oops", .null, .null, .null, .null, .null⟩
    ∧ "" ∉ protocolStatuses
    ∧ JSVal.str "oops" ≠ JSVal.str "" := by
  refine ⟨rfl, by decide, by decide⟩

/-- C3 (amended): the client delivers fallback-parsed payloads without
validation.  Every delivered fallback event has all seven fields: each is
either its default (`""` for status and response, null for error,
tool_name, tool_args, tool_result and info) or the value of a `key=value`
match in the data line; in particular nothing constrains status to the
eight protocol statuses, nor response to be empty for non-response
statuses. -/
theorem c3_parsed_fields_default_or_supplied (s : String) :
    ((parsePythonObject s).status = .str "" ∨
      ∃ v, ("status", v) ∈ pyMatches s ∧ (parsePythonObject s).status = v) ∧
    ((parsePythonObject s).response = .str "" ∨
      ∃ v, ("response", v) ∈ pyMatches s ∧ (parsePythonObject s).response = v) ∧
    ((parsePythonObject s).error = .null ∨
      ∃ v, ("error", v) ∈ pyMatches s ∧ (parsePythonObject s).error = v) ∧
    ((parsePythonObject s).tool_name = .null ∨
      ∃ v, ("tool_name", v) ∈ pyMatches s ∧ (parsePythonObject s).tool_name = v) ∧
    ((parsePythonObject s).tool_args = .null ∨
      ∃ v, ("tool_args", v) ∈ pyMatches s ∧ (parsePythonObject s).tool_args = v) ∧
    ((parsePythonObject s).tool_result = .null ∨
      ∃ v, ("tool_result", v) ∈ pyMatches s ∧ (parsePythonObject s).tool_result = v) ∧
    ((parsePythonObject s).info = .null ∨
      ∃ v, ("info", v) ∈ pyMatches s ∧ (parsePythonObject s).info = v) := by
  unfold parsePythonObject
  exact ⟨foldl_applyKV_field _ _ applyKV_status_agree _ pyDefaults,
    foldl_applyKV_field _ _ applyKV_response_agree _ pyDefaults,
    foldl_applyKV_field _ _ applyKV_error_agree _ pyDefaults,
    foldl_applyKV_field _ _ applyKV_tool_name_agree _ pyDefaults,
    foldl_applyKV_field _ _ applyKV_tool_args_agree _ pyDefaults,
    foldl_applyKV_field _ _ applyKV_tool_result_agree _ pyDefaults,
    foldl_applyKV_field _ _ applyKV_info_agree _ pyDefaults⟩

/-- C6: after processing a stream of events for one question, the
assistant message's accumulated response text equals the concatenation,
in arrival order, of the `response` fields of exactly the events whose
status is `response`; events of any other status contribute nothing. -/
theorem c6_response_accumulation (tempId : Int) (sentAt question chatId : String)
    (events : List StreamEvt) :
    (processEvents (mkOptimisticMsg tempId sentAt question chatId) events).response
      = String.join ((events.filter fun d => d.status == "response").map
          fun d => d.response) := by
  rw [processEvents_response]
  simp [mkOptimisticMsg]

/-- C7: a `keepalive` event leaves the client's chat message state
unchanged — no step is added or modified, and the response text and token
counters of every message are exactly as before. -/
theorem c7_keepalive_frame (prev : List Msg) (tempId : Int) (d : StreamEvt)
    (h : d.status = "keepalive") :
    updateChatMessages prev tempId d = prev := by
  have happ : ∀ m : Msg, applyEvent m d = m := by
    intro m
    unfold applyEvent
    rw [h]
    simp
  unfold updateChatMessages
  simp [happ]

theorem c7_keepalive_frame_witness :
    updateChatMessages [mkOptimisticMsg 1 "t" "q" "c"] 1
        ⟨"keepalive", "", none, none, none, none, none⟩
      = [mkOptimisticMsg 1 "t" "q" "c"] :=
  c7_keepalive_frame _ _ _ rfl

/- ===================================================================
   Claim C9: buildQueryString
   =================================================================== -/

theorem uspSet_fresh {l : List (String × String)} {k : String} (v : String)
    (h : ∀ kv ∈ l, kv.1 ≠ k) : uspSet l k v = l ++ [(k, v)] := by
  induction l with
  | nil => rfl
  | cons kv t ih =>
      rw [uspSet]
      rw [if_neg (h kv (List.mem_cons_self ..))]
      rw [ih fun kv' h' => h kv' (List.mem_cons_of_mem _ h')]
      rfl

def qsFoldStep (acc : List (String × String)) (kv : String × QVal) :
    List (String × String) :=
  if kv.2.isNullish then acc else uspSet acc kv.1 (jsToString kv.2)

theorem foldl_qsFoldStep (ps : List (String × QVal)) :
    ∀ acc : List (String × String),
      (∀ kv ∈ acc, ∀ kv' ∈ ps, kv.1 ≠ kv'.1) → (ps.map Prod.fst).Nodup →
      ps.foldl qsFoldStep acc
        = acc ++ (ps.filter fun kv => !kv.2.isNullish).map
            (fun kv => (kv.1, jsToString kv.2)) := by
  induction ps with
  | nil => intro acc _ _; simp
  | cons kv t ih =>
      intro acc hdisj hnd
      have hndt : (t.map Prod.fst).Nodup := by
        simp only [List.map_cons, List.nodup_cons] at hnd
        exact hnd.2
      have hknot : kv.1 ∉ t.map Prod.fst := by
        simp only [List.map_cons, List.nodup_cons] at hnd
        exact hnd.1
      rw [List.foldl_cons]
      by_cases hn : kv.2.isNullish
      · rw [show qsFoldStep acc kv = acc by simp [qsFoldStep, hn]]
        rw [ih acc (fun a ha b hb => hdisj a ha b (List.mem_cons_of_mem _ hb)) hndt]
        simp [List.filter_cons, hn]
      · have hstep : qsFoldStep acc kv = acc ++ [(kv.1, jsToString kv.2)] := by
          rw [qsFoldStep, if_neg hn]
          exact uspSet_fresh _ fun a ha => hdisj a ha kv (List.mem_cons_self ..)
        rw [hstep]
        rw [ih (acc ++ [(kv.1, jsToString kv.2)]) ?_ hndt]
        · have hb : (!kv.2.isNullish) = true := by simp [hn]
          simp [List.filter_cons, hb]
        · intro a ha b hb
          rcases List.mem_append.mp ha with h1 | h2
          · exact hdisj a h1 b (List.mem_cons_of_mem _ hb)
          · have : a = (kv.1, jsToString kv.2) := by simpa using h2
            subst this
            intro hc
            exact hknot (hc ▸ List.mem_map_of_mem Prod.fst hb)

theorem intercalate_go_length (s : String) :
    ∀ (xs : List String) (acc : String),
      acc.length ≤ (String.intercalate.go acc s xs).length := by
  intro xs
  induction xs with
  | nil => intro acc; exact Nat.le_refl _
  | cons a as ih =>
      intro acc
      have h1 := ih (acc ++ s ++ a)
      have h2 : acc.length ≤ (acc ++ s ++ a).length := by
        rw [String.length_append, String.length_append]
        omega
      exact Nat.le_trans h2 h1

theorem uspToString_cons_ne_empty (k v : String) (rest : List (String × String)) :
    uspToString ((k, v) :: rest) ≠ "" := by
  intro hc
  have h1 : (formEncode k ++ "=" ++ formEncode v).length
      ≤ (uspToString ((k, v) :: rest)).length := by
    rw [uspToString]
    simp only [List.map_cons]
    exact intercalate_go_length _ _ _
  rw [hc] at h1
  rw [String.length_append, String.length_append] at h1
  have : ("=" : String).length = 1 := rfl
  have : ("" : String).length = 0 := rfl
  omega

theorem foldl_qsFoldStep_all_nullish (ps : List (String × QVal)) :
    ∀ acc : List (String × String),
      (∀ kv ∈ ps, kv.2.isNullish = true) → ps.foldl qsFoldStep acc = acc := by
  induction ps with
  | nil => intro acc _; rfl
  | cons kv t ih =>
      intro acc h
      rw [List.foldl_cons,
        show qsFoldStep acc kv = acc by
          simp [qsFoldStep, h kv (List.mem_cons_self ..)]]
      exact ih acc fun a ha => h a (List.mem_cons_of_mem _ ha)

/-- C9: `buildQueryString` returns the empty string when `params` is
absent or every value in it is null or undefined; otherwise it returns a
string beginning with `?` whose serialized query entries are exactly the
keys whose values are neither null nor undefined, in entry order, each
value converted with `String(...)` (then form-urlencoded, as
`URLSearchParams.toString` does). -/
theorem c9_build_query_string :
    buildQueryString none = "" ∧
    (∀ ps : List (String × QVal), (∀ kv ∈ ps, kv.2.isNullish = true) →
      buildQueryString (some ps) = "") ∧
    (∀ ps : List (String × QVal), (ps.map Prod.fst).Nodup →
      (∃ kv ∈ ps, kv.2.isNullish = false) →
      buildQueryString (some ps)
        = "?" ++ uspToString ((ps.filter fun kv => !kv.2.isNullish).map
            fun kv => (kv.1, jsToString kv.2))) := by
  refine ⟨rfl, ?_, ?_⟩
  · intro ps hall
    show (if uspToString (ps.foldl qsFoldStep []) = "" then ""
      else "?" ++ uspToString (ps.foldl qsFoldStep [])) = ""
    rw [foldl_qsFoldStep_all_nullish ps [] hall]
    rfl
  · intro ps hnd hex
    obtain ⟨kv0, hmem, hkv0⟩ := hex
    have hfold := foldl_qsFoldStep ps [] (by intro a ha; cases ha) hnd
    rw [List.nil_append] at hfold
    show (if uspToString (ps.foldl qsFoldStep []) = "" then ""
      else "?" ++ uspToString (ps.foldl qsFoldStep [])) = _
    rw [hfold]
    rcases hflt : ps.filter fun kv => !kv.2.isNullish with _ | ⟨e, rest⟩
    · exfalso
      have : kv0 ∈ ps.filter fun kv => !kv.2.isNullish :=
        List.mem_filter.mpr ⟨hmem, by simp [hkv0]⟩
      rw [hflt] at this
      cases this
    · have hneStr : ¬ uspToString ((ps.filter fun kv => !kv.2.isNullish).map
          fun kv => (kv.1, jsToString kv.2)) = "" := by
        rw [hflt]
        simp only [List.map_cons]
        exact uspToString_cons_ne_empty e.1 (jsToString e.2) _
      rw [if_neg hneStr]

theorem c9_build_query_string_witness :
    buildQueryString (some [("page_number", QVal.num 2), ("note", QVal.null)]) = "" ∨
    (buildQueryString (some [("x", QVal.null), ("q", QVal.str "a b")])
        = "?" ++ uspToString [("q", "a b")]
      ∧ buildQueryString (some [("x", QVal.null)]) = "") := by
  right
  constructor
  · have h := c9_build_query_string.2.2 [("x", QVal.null), ("q", QVal.str "a b")]
      (by decide) ⟨("q", QVal.str "a b"), by decide, by decide⟩
    rw [h]
    rfl
  · exact c9_build_query_string.2.1 [("x", QVal.null)] (by decide)

/- ===================================================================
   Claim C4: Recursion Guard (spec-modelled)
   =================================================================== -/

/- Modelled from the spec: the Recursion Guard of §4.4 is part of the
back-end engine, which is not contained in the repository snapshot.
State: the ordered stack of agent ids in flight for one top-level turn,
plus the configured maximum depth. -/
structure RecursionGuard where
  maxDepth : Nat
  stack : List String
deriving DecidableEq, Repr

/- Modelled from the spec: `enter(agentId) -> allow | reject(reason)`.
Reject on a cycle (id already in the stack) or when the push would exceed
the maximum depth; otherwise push and allow. -/
inductive EnterResult where
  | allow (g : RecursionGuard)
  | reject (reason : String)
deriving DecidableEq, Repr

def enterGuard (g : RecursionGuard) (agentId : String) : EnterResult :=
  if agentId ∈ g.stack then .reject "cycle"
  else if g.maxDepth < g.stack.length + 1 then .reject "depth"
  else .allow { g with stack := agentId :: g.stack }

def EnterResult.isReject : EnterResult → Bool
  | .allow _ => false
  | .reject _ => true

/- Modelled from the spec: `leave` pops the entry pushed by the matching
`enter` (scoped release). -/
def leaveGuard (g : RecursionGuard) : RecursionGuard :=
  { g with stack := g.stack.tail }

/- Modelled from the spec: how a sub-turn terminates. -/
inductive SubTurnExit where
  | completed
  | errored
  | cancelled
deriving DecidableEq, Repr

/- Modelled from the spec: one agent-executor sub-turn.  `enter` is
consulted first; on rejection no sub-turn runs and the guard is
untouched; on acceptance the sub-turn runs to any exit kind and `leave`
is applied on every exit path.  Returns the final guard and whether the
sub-turn was admitted. -/
def runSubTurn (g : RecursionGuard) (agentId : String) (exitKind : SubTurnExit) :
    RecursionGuard × Bool :=
  match enterGuard g agentId with
  | .reject _ => (g, false)
  | .allow g' =>
      match exitKind with
      | .completed => (leaveGuard g', true)
      | .errored => (leaveGuard g', true)
      | .cancelled => (leaveGuard g', true)

/-- C4: the Recursion Guard's `enter` rejects exactly when the agent id
already appears in the active stack (cycle) or the push would exceed the
configured maximum depth, and otherwise pushes the id and allows; and on
every exit path of a sub-turn (completion, error, or cancellation) the
entry is removed, so the stack returns to its pre-call value and no stale
entry remains. -/
theorem c4_recursion_guard :
    (∀ (g : RecursionGuard) (a : String),
      (enterGuard g a).isReject = true ↔
        (a ∈ g.stack ∨ g.maxDepth < g.stack.length + 1)) ∧
    (∀ (g : RecursionGuard) (a : String),
      a ∉ g.stack → g.stack.length + 1 ≤ g.maxDepth →
        enterGuard g a = .allow ⟨g.maxDepth, a :: g.stack⟩) ∧
    (∀ (g : RecursionGuard) (a : String) (e : SubTurnExit),
      (runSubTurn g a e).1.stack = g.stack) := by
  refine ⟨?_, ?_, ?_⟩
  · intro g a
    constructor
    · intro h
      by_contra hc
      push_neg at hc
      rw [enterGuard, if_neg hc.1, if_neg (by omega)] at h
      simp [EnterResult.isReject] at h
    · intro h
      rcases h with h | h
      · rw [enterGuard, if_pos h]; rfl
      · rw [enterGuard]
        by_cases hm : a ∈ g.stack
        · rw [if_pos hm]; rfl
        · rw [if_neg hm, if_pos h]; rfl
  · intro g a hmem hdepth
    rw [enterGuard, if_neg hmem, if_neg (by omega)]
  · intro g a e
    rw [runSubTurn]
    by_cases hm : a ∈ g.stack
    · rw [enterGuard, if_pos hm]
    · by_cases hd : g.maxDepth < g.stack.length + 1
      · rw [enterGuard, if_neg hm, if_pos hd]
      · rw [enterGuard, if_neg hm, if_neg hd]
        cases e <;> rfl

theorem c4_recursion_guard_witness :
    ((enterGuard ⟨5, ["a"]⟩ "a").isReject = true) ∧
    (enterGuard ⟨5, ["a"]⟩ "b" = .allow ⟨5, ["b", "a"]⟩) ∧
    ((runSubTurn ⟨5, ["a"]⟩ "b" .cancelled).1.stack = ["a"]) :=
  ⟨(c4_recursion_guard.1 ⟨5, ["a"]⟩ "a").mpr (Or.inl (by decide)),
   c4_recursion_guard.2.1 ⟨5, ["a"]⟩ "b" (by decide) (by decide),
   c4_recursion_guard.2.2 ⟨5, ["a"]⟩ "b" .cancelled⟩

/- ===================================================================
   Claim C5: Streaming Emitter event ordering (spec-modelled)
   =================================================================== -/

/- Modelled from the spec: the Streaming Emitter and Turn Orchestrator of
§4.1/§4.5 are part of the back-end engine, which is not contained in the
repository snapshot.  Wire events carry the §4.5 statuses; tool events
carry the call id of the request they belong to. -/
inductive TEvent where
  | searching
  | tool_call (id : Nat)
  | tool_running (id : Nat)
  | tool_result (id : Nat)
  | response (s : String)
  | end_turn
  | error
  | keepalive
deriving DecidableEq, Repr

def isTerminal : TEvent → Bool
  | .end_turn => true
  | .error => true
  | _ => false

def mentionsId (i : Nat) : TEvent → Bool
  | .tool_call j => j == i
  | .tool_running j => j == i
  | .tool_result j => j == i
  | _ => false

def tEventTriple (i : Nat) : List TEvent :=
  [.tool_call i, .tool_running i, .tool_result i]

/- Modelled from the spec: events of one tool-call batch.  Call ids are
assigned sequentially from `start` (unique within the turn, §3); for each
call the emitter produces `tool_call → tool_running → tool_result`
(§4.5). -/
def batchEvents (start : Nat) : Nat → List TEvent
  | 0 => []
  | n + 1 => tEventTriple start ++ batchEvents (start + 1) n

/- Modelled from the spec: the generation loop's successive batches
(sizes `bs`), ids continuing across batches. -/
def allBatches (start : Nat) : List Nat → List TEvent
  | [] => []
  | n :: rest => batchEvents start n ++ allBatches (start + n) rest

/- Modelled from the spec: one turn's emitted event sequence — an optional
`searching` (entering RETRIEVING), the tool batches, the incremental
`response` fragments, and exactly one closing `end_turn` or `error`. -/
structure TurnScript where
  useKB : Bool
  batches : List Nat
  fragments : List String
  failed : Bool

def runTurn (t : TurnScript) : List TEvent :=
  (if t.useKB then [.searching] else []) ++ allBatches 0 t.batches ++
    (t.fragments.map .response) ++ [if t.failed then .error else .end_turn]

theorem batchEvents_not_terminal (n : Nat) :
    ∀ start, ∀ e ∈ batchEvents start n, isTerminal e = false := by
  induction n with
  | zero => intro start e he; cases he
  | succ m ih =>
      intro start e he
      rw [batchEvents] at he
      rcases List.mem_append.mp he with h | h
      · simp only [tEventTriple, List.mem_cons, List.not_mem_nil, or_false] at h
        rcases h with h | h | h <;> subst h <;> rfl
      · exact ih (start + 1) e h

theorem allBatches_not_terminal (bs : List Nat) :
    ∀ start, ∀ e ∈ allBatches start bs, isTerminal e = false := by
  induction bs with
  | nil => intro start e he; cases he
  | cons n rest ih =>
      intro start e he
      rw [allBatches] at he
      rcases List.mem_append.mp he with h | h
      · exact batchEvents_not_terminal n start e h
      · exact ih (start + n) e h

theorem filter_batchEvents (i : Nat) (n : Nat) :
    ∀ start, (batchEvents start n).filter (mentionsId i)
      = if start ≤ i ∧ i < start + n then tEventTriple i else [] := by
  induction n with
  | zero =>
      intro start
      rw [if_neg (by omega)]
      rfl
  | succ m ih =>
      intro start
      rw [batchEvents, List.filter_append, ih (start + 1)]
      by_cases hs : start = i
      · subst hs
        have h1 : (tEventTriple start).filter (mentionsId start) = tEventTriple start := by
          simp [tEventTriple, mentionsId, List.filter_cons]
        rw [h1, if_neg (by omega), if_pos (by omega)]
        simp
      · have h1 : (tEventTriple start).filter (mentionsId i) = [] := by
          simp [tEventTriple, mentionsId, List.filter_cons, hs]
        rw [h1]
        by_cases hc : start + 1 ≤ i ∧ i < start + 1 + m
        · rw [if_pos hc, if_pos (by omega)]
          simp
        · rw [if_neg hc, if_neg (by omega)]
          simp

theorem filter_allBatches (i : Nat) (bs : List Nat) :
    ∀ start, (allBatches start bs).filter (mentionsId i)
      = if start ≤ i ∧ i < start + bs.sum then tEventTriple i else [] := by
  induction bs with
  | nil =>
      intro start
      rw [if_neg (by simp only [List.sum_nil]; omega)]
      rfl
  | cons n rest ih =>
      intro start
      rw [allBatches, List.filter_append, filter_batchEvents, ih (start + n)]
      by_cases h1 : start ≤ i ∧ i < start + n
      · rw [if_pos h1, if_neg (by omega),
          if_pos (by simp only [List.sum_cons]; omega)]
        simp
      · rw [if_neg h1]
        by_cases h2 : start + n ≤ i ∧ i < start + n + rest.sum
        · rw [if_pos h2, if_pos (by simp only [List.sum_cons]; omega)]
          simp
        · rw [if_neg h2, if_neg (by simp only [List.sum_cons]; omega)]
          simp

theorem runTurn_body_not_terminal (t : TurnScript) :
    ∀ e ∈ (if t.useKB then [TEvent.searching] else []) ++ allBatches 0 t.batches ++
        (t.fragments.map .response), isTerminal e = false := by
  intro e he
  rcases List.mem_append.mp he with h | h
  · rcases List.mem_append.mp h with h2 | h2
    · by_cases hk : t.useKB
      · rw [if_pos hk] at h2
        simp only [List.mem_singleton] at h2
        subst h2
        rfl
      · rw [if_neg hk] at h2; cases h2
    · exact allBatches_not_terminal t.batches 0 e h2
  · obtain ⟨s, -, hs⟩ := List.mem_map.mp h
    rw [← hs]
    rfl

theorem runTurn_split (t : TurnScript) :
    runTurn t
      = ((if t.useKB then [TEvent.searching] else []) ++ allBatches 0 t.batches ++
          (t.fragments.map .response)) ++
        [if t.failed then TEvent.error else TEvent.end_turn] := by
  rw [runTurn]

/-- C5: for every turn, exactly one terminal event (`end_turn` or
`error`) is emitted, it is the last event and nothing follows it; and for
every tool call id the events mentioning that id appear exactly in the
order `tool_call`, `tool_running`, `tool_result` (or not at all). -/
theorem c5_stream_termination_and_tool_order (t : TurnScript) :
    ((runTurn t).filter isTerminal).length = 1 ∧
    (∃ pre term, runTurn t = pre ++ [term] ∧ isTerminal term = true ∧
      ∀ e ∈ pre, isTerminal e = false) ∧
    (∀ i : Nat, (runTurn t).filter (mentionsId i) = tEventTriple i ∨
      (runTurn t).filter (mentionsId i) = []) := by
  have hterm : isTerminal (if t.failed then TEvent.error else TEvent.end_turn) = true := by
    by_cases hf : t.failed
    · rw [if_pos hf]; rfl
    · rw [if_neg hf]; rfl
  refine ⟨?_, ?_, ?_⟩
  · rw [runTurn_split, List.filter_append]
    rw [List.filter_eq_nil_iff.mpr ?_]
    · rw [List.filter_cons]
      rw [if_pos hterm]
      rfl
    · intro e he
      rw [runTurn_body_not_terminal t e he]
      simp
  · exact ⟨_, _, runTurn_split t, hterm, runTurn_body_not_terminal t⟩
  · intro i
    have hsearch : (if t.useKB then [TEvent.searching] else []).filter (mentionsId i)
        = [] := by
      by_cases hk : t.useKB
      · rw [if_pos hk]; rfl
      · rw [if_neg hk]; rfl
    have hfrag : (t.fragments.map TEvent.response).filter (mentionsId i) = [] := by
      rw [List.filter_eq_nil_iff]
      intro e he
      obtain ⟨s, -, hs⟩ := List.mem_map.mp he
      rw [← hs]
      simp [mentionsId]
    have hlast : ([if t.failed then TEvent.error else TEvent.end_turn] :
        List TEvent).filter (mentionsId i) = [] := by
      by_cases hf : t.failed
      · rw [if_pos hf]; rfl
      · rw [if_neg hf]; rfl
    rw [runTurn_split, List.filter_append, List.filter_append, List.filter_append,
      hsearch, hfrag, hlast, filter_allBatches]
    by_cases hc : 0 ≤ i ∧ i < 0 + t.batches.sum
    · rw [if_pos hc]; left; simp
    · rw [if_neg hc]; right; simp

/- ===================================================================
   Claim C8: extractPathParams / buildPathParamsSchema (webhook editor)
   =================================================================== -/

/- The regex scan of `/\{([^}]+)\}/g`: leftmost matches of a brace, a
nonempty run of non-closing-brace characters, and a closing brace.  The
loop counter is only a structural bound: every round consumes at least
one character, so `cs.length` rounds suffice (`scanParamsAux_congr`). -/
def scanParamsAux : Nat → List Char → List String
  | 0, _ => []
  | fuel + 1, cs =>
      match cs with
      | [] => []
      | c :: rest =>
          if c = lbraceChar then
            let content := rest.takeWhile (fun d => d ≠ rbraceChar)
            match rest.dropWhile (fun d => d ≠ rbraceChar) with
            | _ :: rest' =>
                if content.isEmpty then scanParamsAux fuel rest
                else content.asString :: scanParamsAux fuel rest'
            | [] => []
          else scanParamsAux fuel rest

def scanParams (cs : List Char) : List String := scanParamsAux cs.length cs

theorem scanParamsAux_congr :
    ∀ (f1 : Nat), ∀ (f2 : Nat) (cs : List Char), cs.length ≤ f1 → cs.length ≤ f2 →
      scanParamsAux f1 cs = scanParamsAux f2 cs := by
  intro f1
  induction f1 with
  | zero =>
      intro f2 cs h1 _
      have : cs = [] := List.length_eq_zero.mp (Nat.le_zero.mp h1)
      subst this
      cases f2 <;> rfl
  | succ f ih =>
      intro f2 cs h1 h2
      cases f2 with
      | zero =>
          have : cs = [] := List.length_eq_zero.mp (Nat.le_zero.mp h2)
          subst this
          rfl
      | succ f' =>
          cases cs with
          | nil => rfl
          | cons c rest =>
              simp only [scanParamsAux]
              by_cases hc : c = lbraceChar
              · rw [if_pos hc, if_pos hc]
                simp only [List.length_cons] at h1 h2
                cases hdw : rest.dropWhile (fun d => d ≠ rbraceChar) with
                | nil => rfl
                | cons b rest' =>
                    have hlen : rest'.length + 1 ≤ rest.length := by
                      have := length_dropWhile_le (fun d => d ≠ rbraceChar) rest
                      rw [hdw] at this
                      simpa using this
                    dsimp only
                    by_cases hemp : (rest.takeWhile fun d => d ≠ rbraceChar).isEmpty
                    · rw [if_pos hemp, if_pos hemp]
                      exact ih f' rest (by omega) (by omega)
                    · rw [if_neg hemp, if_neg hemp]
                      rw [ih f' rest' (by omega) (by omega)]
              · rw [if_neg hc, if_neg hc]
                simp only [List.length_cons] at h1 h2
                exact ih f' rest (by omega) (by omega)

/- Shallow embedding of `extractPathParams`: each raw capture is trimmed,
empty names are skipped, and a JS `Set` keeps the first occurrence of
each distinct name, in insertion order. -/
def addPathParam (acc : List String) (c : String) : List String :=
  let n := jsTrim c
  if n = "" then acc else if n ∈ acc then acc else acc ++ [n]

def extractPathParams (url : String) : List String :=
  (scanParams url.data).foldl addPathParam []

/- Runtime JavaScript values for schema manipulation (`any`-typed in the
source). -/
inductive JVal where
  | null
  | bool (b : Bool)
  | num (n : Int)
  | str (s : String)
  | arr (xs : List JVal)
  | obj (fields : List (String × JVal))

def truthyJ : JVal → Bool
  | .null => false
  | .bool b => b
  | .num n => n != 0
  | .str s => s != ""
  | .arr _ => true
  | .obj _ => true

def lookupJ (fields : List (String × JVal)) (k : String) : Option JVal :=
  List.lookup k fields

/- JS property access `value[k]` on the value shapes that can occur. -/
def propGet (v : JVal) (k : String) : Option JVal :=
  match v with
  | .obj fs => lookupJ fs k
  | .arr xs =>
      match k.toNat? with
      | some i => xs[i]?
      | none => none
  | .str s =>
      match k.toNat? with
      | some i => (s.data[i]?).map fun c => .str c.toString
      | none => none
  | _ => none

/- `{...existing}` on a value whose `typeof` is "object" and which is
truthy (objects and arrays; array spread yields index keys). -/
def isSpreadable : JVal → Bool
  | .obj _ => true
  | .arr _ => true
  | _ => false

def spreadToObj : JVal → List (String × JVal)
  | .obj fs => fs
  | .arr xs => xs.enum.map fun p => (toString p.1, p.2)
  | _ => []

/- JS property assignment `o[k] = v`: overwrite in place, else append. -/
def objSet (fields : List (String × JVal)) (k : String) (v : JVal) :
    List (String × JVal) :=
  if (lookupJ fields k).isSome then
    fields.map fun kv => if kv.1 = k then (k, v) else kv
  else fields ++ [(k, v)]

def defaultParamDesc (p : String) : String :=
  "Parâmetro de path " ++ quoteWrap p

def defaultPropFields (p : String) : List (String × JVal) :=
  [("type", .str "string"), ("description", .str (defaultParamDesc p))]

def webhookPathDesc : String :=
  "Schema que define a estrutura dos path parameters de um webhook."

/- `currentIsObject`: the prior schema is truthy, `typeof` "object", and
its `type` field is the string "object". -/
def currentIsObject (cs : Option JVal) : Bool :=
  match cs with
  | some (.obj fs) =>
      match lookupJ fs "type" with
      | some (.str t) => t = "object"
      | _ => false
  | _ => false

/- `currentProps`: the prior schema's `properties` (falsy values fall
back to the empty object), or the empty object. -/
def currentPropsOf (cs : Option JVal) : JVal :=
  if currentIsObject cs then
    match cs with
    | some (.obj fs) =>
        match lookupJ fs "properties" with
        | some v => if truthyJ v then v else .obj []
        | _ => .obj []
    | _ => .obj []
  else .obj []

/- `description`: the prior schema's truthy description, else the default
text. -/
def descOf (cs : Option JVal) : JVal :=
  if currentIsObject cs then
    match cs with
    | some (.obj fs) =>
        match lookupJ fs "description" with
        | some v => if truthyJ v then v else .str webhookPathDesc
        | _ => .str webhookPathDesc
    | _ => .str webhookPathDesc
  else .str webhookPathDesc

/- `if (!next.type) next.type = "string"; if (!next.description) ...` -/
def fillTypeDesc (fields : List (String × JVal)) (p : String) :
    List (String × JVal) :=
  let f1 :=
    match lookupJ fields "type" with
    | some v => if truthyJ v then fields else objSet fields "type" (.str "string")
    | none => objSet fields "type" (.str "string")
  match lookupJ f1 "description" with
  | some v => if truthyJ v then f1
      else objSet f1 "description" (.str (defaultParamDesc p))
  | none => objSet f1 "description" (.str (defaultParamDesc p))

/- The loop body for one parameter name. -/
def buildProp (currentProps : JVal) (p : String) : JVal :=
  let base :=
    match propGet currentProps p with
    | some v => if isSpreadable v then spreadToObj v else defaultPropFields p
    | none => defaultPropFields p
  .obj (fillTypeDesc base p)

/- Shallow embedding of `buildPathParamsSchema`. -/
def buildPathParamsSchema (paramNames : List String) (currentSchema : Option JVal) :
    JVal :=
  let currentProps := currentPropsOf currentSchema
  let props := paramNames.foldl (fun acc p => objSet acc p (buildProp currentProps p)) []
  .obj [("type", .str "object"),
        ("description", descOf currentSchema),
        ("properties", .obj props),
        ("required", .arr (paramNames.map .str))]

theorem lookupJ_none {fields : List (String × JVal)} {k : String}
    (h : ∀ kv ∈ fields, kv.1 ≠ k) : lookupJ fields k = none := by
  induction fields with
  | nil => rfl
  | cons kv t ih =>
      obtain ⟨k', v'⟩ := kv
      have hne : ¬ (k == k') = true := by
        simp only [beq_iff_eq]
        intro hc
        exact h (k', v') (List.mem_cons_self ..) (by simp [hc])
      simp only [lookupJ, List.lookup] at *
      rw [Bool.not_eq_true] at hne
      rw [hne]
      exact ih fun a ha => h a (List.mem_cons_of_mem _ ha)

theorem objSet_fresh {fields : List (String × JVal)} {k : String} (v : JVal)
    (h : ∀ kv ∈ fields, kv.1 ≠ k) : objSet fields k v = fields ++ [(k, v)] := by
  rw [objSet, lookupJ_none h]
  rfl

theorem foldl_objSet (f : String → JVal) (names : List String) :
    ∀ acc : List (String × JVal),
      (∀ kv ∈ acc, kv.1 ∉ names) → names.Nodup →
      names.foldl (fun acc p => objSet acc p (f p)) acc
        = acc ++ names.map fun p => (p, f p) := by
  induction names with
  | nil => intro acc _ _; simp
  | cons n t ih =>
      intro acc hdisj hnd
      rw [List.foldl_cons]
      rw [objSet_fresh (f n) fun kv hkv => fun hc =>
        hdisj kv hkv (hc ▸ List.mem_cons_self ..)]
      rw [ih (acc ++ [(n, f n)]) ?_ (List.nodup_cons.mp hnd).2]
      · simp
      · intro kv hkv
        rcases List.mem_append.mp hkv with h1 | h1
        · exact fun hc => hdisj kv h1 (List.mem_cons_of_mem _ hc)
        · have : kv = (n, f n) := by simpa using h1
          subst this
          exact (List.nodup_cons.mp hnd).1

theorem addPathParam_invariant (l : List String) :
    ∀ acc : List String, acc.Nodup → (∀ x ∈ acc, ¬ x = "") →
      (l.foldl addPathParam acc).Nodup ∧
        ∀ x ∈ l.foldl addPathParam acc, ¬ x = "" := by
  induction l with
  | nil => intro acc h1 h2; exact ⟨h1, h2⟩
  | cons c t ih =>
      intro acc h1 h2
      rw [List.foldl_cons]
      by_cases he : jsTrim c = ""
      · rw [show addPathParam acc c = acc by rw [addPathParam]; simp [he]]
        exact ih acc h1 h2
      · by_cases hm : jsTrim c ∈ acc
        · rw [show addPathParam acc c = acc by
            rw [addPathParam]; simp [he, hm]]
          exact ih acc h1 h2
        · rw [show addPathParam acc c = acc ++ [jsTrim c] by
            rw [addPathParam]; simp [he, hm]]
          refine ih _ ?_ ?_
          · rw [List.nodup_append]
            exact ⟨h1, List.nodup_singleton _, by
              intro a ha hb
              have : a = jsTrim c := by simpa using hb
              exact hm (this ▸ ha)⟩
          · intro x hx
            rcases List.mem_append.mp hx with hx | hx
            · exact h2 x hx
            · have : x = jsTrim c := by simpa using hx
              rw [this]
              exact he

theorem extractPathParams_nodup (url : String) :
    (extractPathParams url).Nodup ∧ ∀ x ∈ extractPathParams url, ¬ x = "" :=
  addPathParam_invariant (scanParams url.data) [] (List.nodup_nil) (by intro x hx; cases hx)

theorem defaultParamDesc_ne_empty (p : String) : ¬ defaultParamDesc p = "" := by
  intro h
  have : (defaultParamDesc p).data.length = 0 := by rw [h]; rfl
  rw [defaultParamDesc] at this
  rw [String.data_append] at this
  simp at this

theorem fillTypeDesc_default (p : String) :
    fillTypeDesc (defaultPropFields p) p = defaultPropFields p := by
  have h1 : lookupJ (defaultPropFields p) "type" = some (.str "string") := rfl
  have h2 : lookupJ (defaultPropFields p) "description"
      = some (.str (defaultParamDesc p)) := rfl
  rw [fillTypeDesc]
  simp only [h1]
  rw [if_pos (by rfl)]
  simp only [h2]
  rw [if_pos ?_]
  have := defaultParamDesc_ne_empty p
  simp [truthyJ, this]

/-- C8 counterexample: the claim says the schema reuses "the existing
property from s when one exists".  When the existing property is not an
object value (here the string `"oops"`), the code discards it and builds
the default string-typed property instead, so the produced property is
not the existing one. -/
theorem c8_counterexample :
    buildPathParamsSchema
        (extractPathParams ("/api/" ++ lbraceStr ++ "id" ++ rbraceChar.toString))
        (some (.obj [("type", .str "object"),
                     ("properties", .obj [("id", .str "oops")])]))
      = .obj [("type", .str "object"),
              ("description", .str webhookPathDesc),
              ("properties", .obj [("id", .obj [("type", .str "string"),
                  ("description", .str (defaultParamDesc "id"))])]),
              ("required", .arr [.str "id"])]
    ∧ JVal.obj [("type", .str "string"), ("description", .str (defaultParamDesc "id"))]
        ≠ JVal.str "oops" :=
  ⟨rfl, fun h => JVal.noConfusion h⟩

/-- C8 (amended): for every webhook URL and prior path-params schema `s`,
`buildPathParamsSchema (extractPathParams url) s` is an object schema
whose `required` list equals the extracted parameter names — the distinct
(`Nodup`), non-empty, trimmed names of the `{...}` groups of the URL in
first-occurrence order — and whose properties are exactly those names in
the same order, where a name's property reuses the existing property from
`s` only when that property is an object value (filling in missing or
falsy `type` and `description`), and is the default string-typed property
otherwise. -/
theorem c8_path_params_schema (url : String) (s : Option JVal) :
    buildPathParamsSchema (extractPathParams url) s
      = .obj [("type", .str "object"),
              ("description", descOf s),
              ("properties", .obj ((extractPathParams url).map
                  fun p => (p, buildProp (currentPropsOf s) p))),
              ("required", .arr ((extractPathParams url).map .str))] ∧
    (extractPathParams url).Nodup ∧
    (∀ n ∈ extractPathParams url, ¬ n = "") ∧
    (∀ p fs, propGet (currentPropsOf s) p = some (.obj fs) →
        buildProp (currentPropsOf s) p = .obj (fillTypeDesc fs p)) ∧
    (∀ p v, propGet (currentPropsOf s) p = some v → isSpreadable v = false →
        buildProp (currentPropsOf s) p = .obj (defaultPropFields p)) ∧
    (∀ p, propGet (currentPropsOf s) p = none →
        buildProp (currentPropsOf s) p = .obj (defaultPropFields p)) := by
  obtain ⟨hnd, hne⟩ := extractPathParams_nodup url
  refine ⟨?_, hnd, hne, ?_, ?_, ?_⟩
  · rw [buildPathParamsSchema]
    rw [foldl_objSet _ _ [] (by intro kv hkv; cases hkv) hnd]
    rfl
  · intro p fs hp
    rw [buildProp, hp]
    dsimp only
    rw [if_pos (by rfl)]
    rfl
  · intro p v hp hv
    rw [buildProp, hp]
    dsimp only
    rw [if_neg (by rw [hv]; exact Bool.false_ne_true)]
    rw [fillTypeDesc_default]
  · intro p hp
    rw [buildProp, hp]
    dsimp only
    rw [fillTypeDesc_default]

theorem c8_path_params_schema_witness :
    buildProp (currentPropsOf (some (JVal.obj []))) "id"
      = .obj (defaultPropFields "id") :=
  (c8_path_params_schema "u" (some (JVal.obj []))).2.2.2.2.2 "id" rfl

/- ===================================================================
   Claim C10: enforceConstraintsOnNode (JSON-schema editor)
   =================================================================== -/

/- `PrimitiveType` of the editor component. -/
inductive PrimType where
  | string
  | number
  | integer
deriving DecidableEq, Repr

/- `JsonSchemaNode`: a primitive node, an object node with ordered
properties and an optional required list, or an array node. -/
mutual
inductive SchemaNode where
  | prim (t : PrimType) (desc : Option String)
  | obj (desc : Option String) (props : PropList) (required : Option (List String))
  | arr (desc : Option String) (items : SchemaNode)
inductive PropList where
  | nil
  | cons (key : String) (val : SchemaNode) (rest : PropList)
end

def SchemaNode.isArr : SchemaNode → Bool
  | .arr _ _ => true
  | _ => false

def SchemaNode.isObjOrArr : SchemaNode → Bool
  | .obj _ _ _ => true
  | .arr _ _ => true
  | _ => false

def SchemaNode.desc : SchemaNode → Option String
  | .prim _ d => d
  | .obj d _ _ => d
  | .arr d _ => d

def PropList.keys : PropList → List String
  | .nil => []
  | .cons k _ rest => k :: rest.keys

/- `nextProps[r]` (JS object read; keys of a `Record` are unique). -/
def PropList.lookupVal : PropList → String → Option SchemaNode
  | .nil, _ => none
  | .cons k v rest, r => if k = r then some v else rest.lookupVal r

/- `depthAllowed != null && depth > depthAllowed`. -/
def depthExceeded (depthAllowed : Option Nat) (depth : Nat) : Bool :=
  match depthAllowed with
  | some k => decide (k < depth)
  | none => false

/- Shallow embedding of `enforceConstraintsOnNode`: strip arrays where
they are not allowed (except at the root depth), cut object/array nodes
beyond the allowed depth down to strings, recurse into properties and
items, and recompute the required list. -/
mutual
def enforceConstraintsOnNode (node : SchemaNode) (depth rootDepth : Nat)
    (arrayAllowed : Bool) (depthAllowed : Option Nat) (allFieldsRequired : Bool) :
    SchemaNode :=
  if node.isArr && !arrayAllowed && !(depth == rootDepth) then
    .prim .string node.desc
  else if node.isObjOrArr && depthExceeded depthAllowed depth then
    .prim .string node.desc
  else
    match node with
    | .obj d props req =>
        let nextProps := enforceConstraintsOnProps props (depth + 1) rootDepth
          arrayAllowed depthAllowed allFieldsRequired
        let nextReq :=
          if allFieldsRequired then nextProps.keys
          else (req.getD []).filter fun r => (nextProps.lookupVal r).isSome
        .obj d nextProps (some nextReq)
    | .arr d items =>
        .arr d (enforceConstraintsOnNode items (depth + 1) rootDepth
          arrayAllowed depthAllowed allFieldsRequired)
    | .prim t d => .prim t d

def enforceConstraintsOnProps (props : PropList) (depth rootDepth : Nat)
    (arrayAllowed : Bool) (depthAllowed : Option Nat) (allFieldsRequired : Bool) :
    PropList :=
  match props with
  | .nil => .nil
  | .cons k v rest =>
      .cons k
        (enforceConstraintsOnNode v depth rootDepth arrayAllowed depthAllowed
          allFieldsRequired)
        (enforceConstraintsOnProps rest depth rootDepth arrayAllowed depthAllowed
          allFieldsRequired)
end

theorem enforce_prim_eq (t : PrimType) (d : Option String) (depth root : Nat)
    (a : Bool) (da : Option Nat) (f : Bool) :
    enforceConstraintsOnNode (.prim t d) depth root a da f = .prim t d := rfl

theorem enforce_obj_deep (d : Option String) (props : PropList)
    (req : Option (List String)) (depth root : Nat) (a : Bool) (da : Option Nat)
    (f : Bool) (h : depthExceeded da depth = true) :
    enforceConstraintsOnNode (.obj d props req) depth root a da f
      = .prim .string d := by
  rw [enforceConstraintsOnNode]
  rw [if_neg (by simp [SchemaNode.isArr])]
  rw [if_pos (by simp [SchemaNode.isObjOrArr, h])]
  rfl

theorem enforce_obj_eq (d : Option String) (props : PropList)
    (req : Option (List String)) (depth root : Nat) (a : Bool) (da : Option Nat)
    (f : Bool) (h : depthExceeded da depth = false) :
    enforceConstraintsOnNode (.obj d props req) depth root a da f
      = .obj d (enforceConstraintsOnProps props (depth + 1) root a da f)
          (some (if f then (enforceConstraintsOnProps props (depth + 1) root a da f).keys
            else (req.getD []).filter fun r =>
              ((enforceConstraintsOnProps props (depth + 1) root a da f).lookupVal r).isSome)) := by
  rw [enforceConstraintsOnNode]
  rw [if_neg (by simp [SchemaNode.isArr])]
  rw [if_neg (by simp [SchemaNode.isObjOrArr, h])]

theorem enforce_arr_strip (d : Option String) (items : SchemaNode)
    (depth root : Nat) (da : Option Nat) (f : Bool)
    (h : ¬ depth = root) :
    enforceConstraintsOnNode (.arr d items) depth root false da f
      = .prim .string d := by
  rw [enforceConstraintsOnNode]
  rw [if_pos (by simp [SchemaNode.isArr, h])]
  rfl

theorem enforce_arr_deep (d : Option String) (items : SchemaNode)
    (depth root : Nat) (a : Bool) (da : Option Nat) (f : Bool)
    (h1 : (SchemaNode.isArr (.arr d items) && !a && !(depth == root)) = false)
    (h2 : depthExceeded da depth = true) :
    enforceConstraintsOnNode (.arr d items) depth root a da f
      = .prim .string d := by
  rw [enforceConstraintsOnNode]
  rw [if_neg (by rw [h1]; exact Bool.false_ne_true)]
  rw [if_pos (by simp [SchemaNode.isObjOrArr, h2])]
  rfl

theorem enforce_arr_eq (d : Option String) (items : SchemaNode)
    (depth root : Nat) (a : Bool) (da : Option Nat) (f : Bool)
    (h1 : (SchemaNode.isArr (.arr d items) && !a && !(depth == root)) = false)
    (h2 : depthExceeded da depth = false) :
    enforceConstraintsOnNode (.arr d items) depth root a da f
      = .arr d (enforceConstraintsOnNode items (depth + 1) root a da f) := by
  rw [enforceConstraintsOnNode]
  rw [if_neg (by rw [h1]; exact Bool.false_ne_true)]
  rw [if_neg (by simp [SchemaNode.isObjOrArr, h2])]

theorem enforceProps_nil_eq (depth root : Nat) (a : Bool) (da : Option Nat) (f : Bool) :
    enforceConstraintsOnProps .nil depth root a da f = .nil := rfl

theorem enforceProps_cons_eq (k : String) (v : SchemaNode) (rest : PropList)
    (depth root : Nat) (a : Bool) (da : Option Nat) (f : Bool) :
    enforceConstraintsOnProps (.cons k v rest) depth root a da f
      = .cons k (enforceConstraintsOnNode v depth root a da f)
          (enforceConstraintsOnProps rest depth root a da f) := rfl

theorem filter_self_idem {α : Type} (p : α → Bool) (l : List α) :
    (l.filter p).filter p = l.filter p := by
  induction l with
  | nil => rfl
  | cons x t ih =>
      rw [List.filter_cons]
      by_cases h : p x
      · rw [if_pos h, List.filter_cons, if_pos h, ih]
      · rw [if_neg h, ih]

mutual
theorem enforce_idem (node : SchemaNode) :
    ∀ (depth root : Nat) (a : Bool) (da : Option Nat) (f : Bool),
      enforceConstraintsOnNode (enforceConstraintsOnNode node depth root a da f)
          depth root a da f
        = enforceConstraintsOnNode node depth root a da f :=
  match node with
  | .prim t d => fun depth root a da f => by
      rw [enforce_prim_eq, enforce_prim_eq]
  | .obj d props req => fun depth root a da f => by
      have ihp := enforceProps_idem props
      by_cases h2 : depthExceeded da depth = true
      · rw [enforce_obj_deep d props req depth root a da f h2, enforce_prim_eq]
      · have h2' : depthExceeded da depth = false := by
          revert h2; cases depthExceeded da depth <;> simp
        rw [enforce_obj_eq d props req depth root a da f h2']
        rw [enforce_obj_eq _ _ _ depth root a da f h2']
        simp only [ihp (depth + 1) root a da f]
        by_cases hf : f = true
        · simp [hf]
        · have hf' : f = false := by revert hf; cases f <;> simp
          simp only [hf', Bool.false_eq_true, if_false, Option.getD_some]
          rw [filter_self_idem]
  | .arr d items => fun depth root a da f => by
      have ihi := enforce_idem items
      by_cases h1 : (SchemaNode.isArr (.arr d items) && !a && !(depth == root)) = true
      · have ha : a = false := by
          revert h1; cases a <;> simp [SchemaNode.isArr]
        have hd : ¬ depth = root := by
          revert h1; cases hdr : depth == root
          · intro _; simpa using hdr
          · simp [SchemaNode.isArr, hdr]
        subst ha
        rw [enforce_arr_strip d items depth root da f hd, enforce_prim_eq]
      · have h1' : (SchemaNode.isArr (.arr d items) && !a && !(depth == root)) = false := by
          revert h1
          cases SchemaNode.isArr (.arr d items) && !a && !(depth == root) <;> simp
        by_cases h2 : depthExceeded da depth = true
        · rw [enforce_arr_deep d items depth root a da f h1' h2, enforce_prim_eq]
        · have h2' : depthExceeded da depth = false := by
            revert h2; cases depthExceeded da depth <;> simp
          rw [enforce_arr_eq d items depth root a da f h1' h2']
          rw [enforce_arr_eq d (enforceConstraintsOnNode items (depth + 1) root a da f)
            depth root a da f (by exact h1') h2']
          rw [ihi (depth + 1) root a da f]

theorem enforceProps_idem (props : PropList) :
    ∀ (depth root : Nat) (a : Bool) (da : Option Nat) (f : Bool),
      enforceConstraintsOnProps (enforceConstraintsOnProps props depth root a da f)
          depth root a da f
        = enforceConstraintsOnProps props depth root a da f :=
  match props with
  | .nil => fun depth root a da f => rfl
  | .cons k v rest => fun depth root a da f => by
      have ih1 := enforce_idem v
      have ih2 := enforceProps_idem rest
      rw [enforceProps_cons_eq, enforceProps_cons_eq]
      rw [ih1 depth root a da f, ih2 depth root a da f]
end

/-- C10: `enforceConstraintsOnNode` is idempotent: for every schema node
and every fixed choice of `arrayAllowed`, `depthAllowed` and
`allFieldsRequired`, applying it twice starting from the root depth
yields the same schema as applying it once — its output already
satisfies the depth, array and required-fields constraints it
enforces. -/
theorem c10_enforce_idempotent (n : SchemaNode) (rootDepth : Nat)
    (arrayAllowed : Bool) (depthAllowed : Option Nat) (allFieldsRequired : Bool) :
    enforceConstraintsOnNode
        (enforceConstraintsOnNode n rootDepth rootDepth arrayAllowed depthAllowed
          allFieldsRequired)
        rootDepth rootDepth arrayAllowed depthAllowed allFieldsRequired
      = enforceConstraintsOnNode n rootDepth rootDepth arrayAllowed depthAllowed
          allFieldsRequired :=
  enforce_idem n rootDepth rootDepth arrayAllowed depthAllowed allFieldsRequired
